import Mathlib

/-
Verification of the lgmath wrapper classes (so3/Rotation.cpp, se3/Transformation.cpp)
against their natural-language specification.

The two wrapper classes are embedded shallowly: Eigen's fixed-size matrices and
vectors become explicit record types over the reals (exact arithmetic), the
in-place operators become functions returning the updated value, and the throwing
constructors return an Except value.  The core maps (so3::vec2rot, so3::rot2vec,
se3::vec2tran) live in Operations.cpp, which is not among the provided sources;
those are modelled from the specification text, and their definitions say so.
-/

/-- A 3-vector with real entries (Eigen::Vector3d under exact arithmetic). -/
@[ext]
structure Vec3 where
  x : ℝ
  y : ℝ
  z : ℝ

/-- A 3x3 real matrix with row-major named entries (Eigen::Matrix3d under exact
arithmetic): field `xy` is row x, column y. -/
@[ext]
structure Mat3 where
  xx : ℝ
  xy : ℝ
  xz : ℝ
  yx : ℝ
  yy : ℝ
  yz : ℝ
  zx : ℝ
  zy : ℝ
  zz : ℝ

/-- A homogeneous 4-vector (Eigen::Vector4d). -/
@[ext]
structure Vec4 where
  a : ℝ
  b : ℝ
  c : ℝ
  d : ℝ

/-- A 4x4 real matrix (Eigen::Matrix4d), entries `m⟨row⟩⟨col⟩`. -/
@[ext]
structure Mat4 where
  m00 : ℝ
  m01 : ℝ
  m02 : ℝ
  m03 : ℝ
  m10 : ℝ
  m11 : ℝ
  m12 : ℝ
  m13 : ℝ
  m20 : ℝ
  m21 : ℝ
  m22 : ℝ
  m23 : ℝ
  m30 : ℝ
  m31 : ℝ
  m32 : ℝ
  m33 : ℝ

/-- The zero 3-vector. -/
def zeroV : Vec3 := ⟨0, 0, 0⟩

/-- Componentwise vector addition. -/
def addV (u v : Vec3) : Vec3 := ⟨u.x + v.x, u.y + v.y, u.z + v.z⟩

/-- Scalar multiple of a 3-vector. -/
def smulV (s : ℝ) (v : Vec3) : Vec3 := ⟨s * v.x, s * v.y, s * v.z⟩

/-- Negation of a 3-vector. -/
def negV (v : Vec3) : Vec3 := ⟨-v.x, -v.y, -v.z⟩

/-- Euclidean norm of a 3-vector. -/
noncomputable def norm3 (v : Vec3) : ℝ := Real.sqrt (v.x ^ 2 + v.y ^ 2 + v.z ^ 2)

/-- The 3x3 identity matrix. -/
def identityM : Mat3 := ⟨1, 0, 0, 0, 1, 0, 0, 0, 1⟩

/-- Matrix product of two 3x3 matrices. -/
def matMul (A B : Mat3) : Mat3 :=
  ⟨A.xx * B.xx + A.xy * B.yx + A.xz * B.zx,
   A.xx * B.xy + A.xy * B.yy + A.xz * B.zy,
   A.xx * B.xz + A.xy * B.yz + A.xz * B.zz,
   A.yx * B.xx + A.yy * B.yx + A.yz * B.zx,
   A.yx * B.xy + A.yy * B.yy + A.yz * B.zy,
   A.yx * B.xz + A.yy * B.yz + A.yz * B.zz,
   A.zx * B.xx + A.zy * B.yx + A.zz * B.zx,
   A.zx * B.xy + A.zy * B.yy + A.zz * B.zy,
   A.zx * B.xz + A.zy * B.yz + A.zz * B.zz⟩

/-- Matrix transpose. -/
def transposeM (A : Mat3) : Mat3 :=
  ⟨A.xx, A.yx, A.zx, A.xy, A.yy, A.zy, A.xz, A.yz, A.zz⟩

/-- Componentwise matrix sum. -/
def matAdd (A B : Mat3) : Mat3 :=
  ⟨A.xx + B.xx, A.xy + B.xy, A.xz + B.xz,
   A.yx + B.yx, A.yy + B.yy, A.yz + B.yz,
   A.zx + B.zx, A.zy + B.zy, A.zz + B.zz⟩

/-- Scalar multiple of a matrix. -/
def matSmul (s : ℝ) (A : Mat3) : Mat3 :=
  ⟨s * A.xx, s * A.xy, s * A.xz, s * A.yx, s * A.yy, s * A.yz, s * A.zx, s * A.zy, s * A.zz⟩

/-- Matrix-vector product. -/
def mulMV (A : Mat3) (v : Vec3) : Vec3 :=
  ⟨A.xx * v.x + A.xy * v.y + A.xz * v.z,
   A.yx * v.x + A.yy * v.y + A.yz * v.z,
   A.zx * v.x + A.zy * v.y + A.zz * v.z⟩

/-- Determinant of a 3x3 matrix (cofactor expansion along the first row). -/
def detM (A : Mat3) : ℝ :=
  A.xx * (A.yy * A.zz - A.yz * A.zy) - A.xy * (A.yx * A.zz - A.yz * A.zx)
    + A.xz * (A.yx * A.zy - A.yy * A.zx)

/-- Trace of a 3x3 matrix. -/
def traceM (A : Mat3) : ℝ := A.xx + A.yy + A.zz

/-- The skew-symmetric (cross-product) matrix of a 3-vector. -/
def skewM (v : Vec3) : Mat3 :=
  ⟨0, -v.z, v.y, v.z, 0, -v.x, -v.y, v.x, 0⟩

/-- Modelled from the spec: the SO(3) exponential map `so3::vec2rot` (its
implementation lives in so3/Operations.cpp, which is not among the provided
sources).  Closed form (numTerms = 0): the Rodrigues formula
`R = I + sin(t)/t * skew(phi) + (1-cos(t))/t^2 * skew(phi)^2` with `t = |phi|`,
returning the identity when the angle is (effectively) zero; under exact
arithmetic the near-zero tolerance is taken as exact zero.  The truncated-series
branch (numTerms > 0) is not modelled: every call settled here uses the closed
form. -/
noncomputable def vec2rot (aaxis : Vec3) : Mat3 :=
  if norm3 aaxis = 0 then identityM
  else
    matAdd
      (matAdd identityM (matSmul (Real.sin (norm3 aaxis) / norm3 aaxis) (skewM aaxis)))
      (matSmul ((1 - Real.cos (norm3 aaxis)) / norm3 aaxis ^ 2)
        (matMul (skewM aaxis) (skewM aaxis)))

/-- Modelled from the spec: the unit axis chosen by the near-pi fallback of
`so3::rot2vec` from the symmetric matrix `B = (R + I)/2`: its dominant
component comes from the largest diagonal entry of `B`, and the remaining
components take their signs consistently from the off-diagonal terms. -/
noncomputable def rot2vecPiAxis (B : Mat3) : Vec3 :=
  if B.yy ≤ B.xx ∧ B.zz ≤ B.xx then
    ⟨Real.sqrt B.xx, B.yx / Real.sqrt B.xx, B.zx / Real.sqrt B.xx⟩
  else if B.zz ≤ B.yy then
    ⟨B.xy / Real.sqrt B.yy, Real.sqrt B.yy, B.zy / Real.sqrt B.yy⟩
  else
    ⟨B.xz / Real.sqrt B.zz, B.yz / Real.sqrt B.zz, Real.sqrt B.zz⟩

/-- Modelled from the spec: the near-pi fallback of `so3::rot2vec` (its
implementation is not among the provided sources): the axis extracted from
`(R + I)/2`, scaled by pi. -/
noncomputable def rot2vecPi (R : Mat3) : Vec3 :=
  smulV Real.pi (rot2vecPiAxis (matSmul (1 / 2) (matAdd R identityM)))

/-- The rotation angle recovered by the logarithmic map:
`arccos((trace(R) - 1)/2)` with the argument clamped to [-1, 1]. -/
noncomputable def rot2vecAngle (R : Mat3) : ℝ :=
  Real.arccos (min 1 (max (-1) ((traceM R - 1) / 2)))

/-- Modelled from the spec: the SO(3) logarithmic map `so3::rot2vec` (its
implementation is not among the provided sources).  At (effectively) zero angle
the zero vector is returned, near pi the fallback `rot2vecPi` is used, and
otherwise `phi = t/(2 sin t) * vee(R - R^T)` where `vee` inverts `skewM`.
Under exact arithmetic the near-zero and near-pi tolerances are taken as exact
equality. -/
noncomputable def rot2vec (R : Mat3) : Vec3 :=
  if rot2vecAngle R = 0 then zeroV
  else if rot2vecAngle R = Real.pi then rot2vecPi R
  else
    smulV (rot2vecAngle R / (2 * Real.sin (rot2vecAngle R)))
      ⟨R.zy - R.yz, R.xz - R.zx, R.yx - R.xy⟩

/-- Modelled from the spec: the left Jacobian used by `se3::vec2tran`
(implementation not among the provided sources):
`J = I + (1-cos t)/t^2 * skew(phi) + (t - sin t)/t^3 * skew(phi)^2`, with
`J = I` in the (exact) zero-angle limit. -/
noncomputable def se3LeftJacobian (aaxis : Vec3) : Mat3 :=
  if norm3 aaxis = 0 then identityM
  else
    matAdd
      (matAdd identityM
        (matSmul ((1 - Real.cos (norm3 aaxis)) / norm3 aaxis ^ 2) (skewM aaxis)))
      (matSmul ((norm3 aaxis - Real.sin (norm3 aaxis)) / norm3 aaxis ^ 3)
        (matMul (skewM aaxis) (skewM aaxis)))

/-- Modelled from the spec: the SE(3) exponential map `se3::vec2tran`
(implementation not among the provided sources) on a twist `xi = [rho; phi]`:
`C = vec2rot(phi)` and `r = J(phi) * rho`. -/
noncomputable def vec2tran (rho aaxis : Vec3) : Mat3 × Vec3 :=
  (vec2rot aaxis, mulMV (se3LeftJacobian aaxis) rho)

/-- The so3 wrapper class: stores the rotation matrix C_ba (so3/Rotation.cpp). -/
@[ext]
structure Rotation where
  C_ba : Mat3

/-- Default constructor: the identity rotation. -/
def defaultRotation : Rotation := ⟨identityM⟩

/-- Constructor from a 3x3 matrix with the reprojection flag: when `reproj` is
set, the stored matrix is the log-then-exp round trip of the input. -/
noncomputable def Rotation.fromMatrix (C : Mat3) (reproj : Bool) : Rotation :=
  if reproj then ⟨vec2rot (rot2vec C)⟩ else ⟨C⟩

/-- Constructor from an axis-angle 3-vector (the numTerms = 0 closed-form path):
C_ba = vec2rot(aaxis_ab). -/
noncomputable def Rotation.fromAxisAngle (aaxis_ab : Vec3) : Rotation :=
  ⟨vec2rot aaxis_ab⟩

/-- The exception classes thrown by the dimension-checked constructors. -/
inductive CtorError where
  | logicError
  | invalidArgument
deriving DecidableEq

/-- Constructor from a dynamically-sized vector (Eigen::VectorXd, embedded as a
list): throws std::logic_error when the length is not 3, otherwise constructs
via the exponential map. -/
noncomputable def Rotation.fromVectorXd (aaxis_ab : List ℝ) : Except CtorError Rotation :=
  if h : aaxis_ab.length = 3 then
    .ok ⟨vec2rot ⟨aaxis_ab.get ⟨0, by omega⟩, aaxis_ab.get ⟨1, by omega⟩,
                  aaxis_ab.get ⟨2, by omega⟩⟩⟩
  else .error .logicError

/-- Logarithmic map accessor: vec() = rot2vec(C_ba). -/
noncomputable def Rotation.vec (R : Rotation) : Vec3 := rot2vec R.C_ba

/-- Inverse: the transpose of the stored matrix, no reprojection. -/
def Rotation.inverse (R : Rotation) : Rotation := ⟨transposeM R.C_ba⟩

/-- In-place right multiply (operator*=): C_ba = C_ba * C_rhs, nothing else. -/
def Rotation.mulAssign (R C_rhs : Rotation) : Rotation :=
  ⟨matMul R.C_ba C_rhs.C_ba⟩

/-- operator*: copy then operator*=. -/
def Rotation.mul (R C_rhs : Rotation) : Rotation := R.mulAssign C_rhs

/-- In-place right multiply by the inverse (operator/=): C_ba = C_ba * C_rhs^T. -/
def Rotation.divAssign (R C_rhs : Rotation) : Rotation :=
  ⟨matMul R.C_ba (transposeM C_rhs.C_ba)⟩

/-- operator/: copy then operator/=. -/
def Rotation.div (R C_rhs : Rotation) : Rotation := R.divAssign C_rhs

/-- Rotation of a point vector: C_ba * p_a. -/
def Rotation.mulVec (R : Rotation) (p_a : Vec3) : Vec3 := mulMV R.C_ba p_a

/-- The se3 wrapper class: stores the rotation C_ba and the translation
r_ab_inb (se3/Transformation.cpp). -/
@[ext]
structure Transformation where
  C_ba : Mat3
  r_ab_inb : Vec3

/-- Default constructor: identity rotation, zero translation. -/
def defaultTransformation : Transformation := ⟨identityM, zeroV⟩

/-- reproject(force): when `force` is set, or |1 - det(C_ba)| > 1e-6, replace
the stored rotation by the log-then-exp round trip; the translation member is
never touched. -/
noncomputable def Transformation.reproject (T : Transformation) (force : Bool) : Transformation :=
  if force = true ∨ |1 - detM T.C_ba| > 1e-6 then
    { T with C_ba := vec2rot (rot2vec T.C_ba) }
  else T

/-- Constructor from a 4x4 matrix: C_ba from the top-left 3x3 block, r_ab_inb
from the top-right 3x1 block, followed by a conditional reprojection. -/
noncomputable def Transformation.fromMatrix4 (T : Mat4) : Transformation :=
  Transformation.reproject
    ⟨⟨T.m00, T.m01, T.m02, T.m10, T.m11, T.m12, T.m20, T.m21, T.m22⟩,
     ⟨T.m03, T.m13, T.m23⟩⟩ false

/-- Constructor from a twist (the numTerms = 0 closed-form path):
(C_ba, r_ab_inb) = vec2tran(xi_ab) with xi_ab = [rho; phi]. -/
noncomputable def Transformation.fromTwist (rho aaxis : Vec3) : Transformation :=
  ⟨(vec2tran rho aaxis).1, (vec2tran rho aaxis).2⟩

/-- Constructor from a dynamically-sized vector (Eigen::VectorXd, embedded as a
list): throws std::invalid_argument when the length is not 6, otherwise
constructs via the exponential map with numTerms = 0. -/
noncomputable def Transformation.fromVectorXd (xi_ab : List ℝ) : Except CtorError Transformation :=
  if h : xi_ab.length = 6 then
    .ok (Transformation.fromTwist
          ⟨xi_ab.get ⟨0, by omega⟩, xi_ab.get ⟨1, by omega⟩, xi_ab.get ⟨2, by omega⟩⟩
          ⟨xi_ab.get ⟨3, by omega⟩, xi_ab.get ⟨4, by omega⟩, xi_ab.get ⟨5, by omega⟩⟩)
  else .error .invalidArgument

/-- matrix(): the homogeneous 4x4 view, identity with the top-left 3x3 block
set to C_ba and the top-right column to r_ab_inb. -/
def Transformation.matrix (T : Transformation) : Mat4 :=
  ⟨T.C_ba.xx, T.C_ba.xy, T.C_ba.xz, T.r_ab_inb.x,
   T.C_ba.yx, T.C_ba.yy, T.C_ba.yz, T.r_ab_inb.y,
   T.C_ba.zx, T.C_ba.zy, T.C_ba.zz, T.r_ab_inb.z,
   0, 0, 0, 1⟩

/-- inverse(): start from the default transformation, store the transpose, run
a conditional reprojection on it, then set the translation from the possibly
reprojected rotation. -/
noncomputable def Transformation.inverse (T : Transformation) : Transformation :=
  let temp := Transformation.reproject ⟨transposeM T.C_ba, zeroV⟩ false
  ⟨temp.C_ba, negV (mulMV temp.C_ba T.r_ab_inb)⟩

/-- In-place right multiply (operator*=): first r_ab_inb += C_ba * rhs.r_ab_inb,
then C_ba = C_ba * rhs.C_ba, then a conditional reprojection. -/
noncomputable def Transformation.mulAssign (T T_rhs : Transformation) : Transformation :=
  Transformation.reproject
    ⟨matMul T.C_ba T_rhs.C_ba, addV T.r_ab_inb (mulMV T.C_ba T_rhs.r_ab_inb)⟩ false

/-- operator*: copy then operator*=. -/
noncomputable def Transformation.mul (T T_rhs : Transformation) : Transformation :=
  T.mulAssign T_rhs

/-- In-place right multiply by the inverse (operator/=): first
C_ba = C_ba * rhs.C_ba^T, then r_ab_inb += (-1) * C_ba * rhs.r_ab_inb using the
updated C_ba, then a conditional reprojection. -/
noncomputable def Transformation.divAssign (T T_rhs : Transformation) : Transformation :=
  Transformation.reproject
    ⟨matMul T.C_ba (transposeM T_rhs.C_ba),
     addV T.r_ab_inb (negV (mulMV (matMul T.C_ba (transposeM T_rhs.C_ba)) T_rhs.r_ab_inb))⟩
    false

/-- operator/: copy then operator/=. -/
noncomputable def Transformation.div (T T_rhs : Transformation) : Transformation :=
  T.divAssign T_rhs

/-- Transformation of a homogeneous point: the first three components are
C_ba * p_a.head + r_ab_inb * p_a[3], the fourth is p_a[3]. -/
def Transformation.mulVec4 (T : Transformation) (p_a : Vec4) : Vec4 :=
  let h := addV (mulMV T.C_ba ⟨p_a.a, p_a.b, p_a.c⟩) (smulV p_a.d T.r_ab_inb)
  ⟨h.x, h.y, h.z, p_a.d⟩

/-- Product of a 4x4 matrix with a homogeneous 4-vector. -/
def mat4MulVec4 (M : Mat4) (p : Vec4) : Vec4 :=
  ⟨M.m00 * p.a + M.m01 * p.b + M.m02 * p.c + M.m03 * p.d,
   M.m10 * p.a + M.m11 * p.b + M.m12 * p.c + M.m13 * p.d,
   M.m20 * p.a + M.m21 * p.b + M.m22 * p.c + M.m23 * p.d,
   M.m30 * p.a + M.m31 * p.b + M.m32 * p.c + M.m33 * p.d⟩

/-- The classical adjugate of a 3x3 matrix (transpose of the cofactor matrix);
a proof device used to show a one-sided matrix inverse is two-sided. -/
def adjM (A : Mat3) : Mat3 :=
  ⟨A.yy * A.zz - A.yz * A.zy, -(A.xy * A.zz - A.xz * A.zy), A.xy * A.yz - A.xz * A.yy,
   -(A.yx * A.zz - A.yz * A.zx), A.xx * A.zz - A.xz * A.zx, -(A.xx * A.yz - A.xz * A.yx),
   A.yx * A.zy - A.yy * A.zx, -(A.xx * A.zy - A.xy * A.zx), A.xx * A.yy - A.xy * A.yx⟩

/-- Membership in SO(3): orthonormal with determinant one (exact arithmetic). -/
def isSO3 (C : Mat3) : Prop := matMul (transposeM C) C = identityM ∧ detM C = 1

/-- States reachable from a valid rotation by the Rotation class operators:
composition (covering both operator* and operator*=), inverse composition
(operator/ and operator/=), and inverse; composition arguments are themselves
valid rotations. -/
inductive RotReach : Rotation → Prop where
  | base (R : Rotation) (h : isSO3 R.C_ba) : RotReach R
  | mul (R C_rhs : Rotation) (h : RotReach R) (h2 : isSO3 C_rhs.C_ba) :
      RotReach (R.mulAssign C_rhs)
  | div (R C_rhs : Rotation) (h : RotReach R) (h2 : isSO3 C_rhs.C_ba) :
      RotReach (R.divAssign C_rhs)
  | inv (R : Rotation) (h : RotReach R) : RotReach R.inverse

/-- States reachable from a valid transformation by the Transformation class
operators: composition (operator* and operator*=), inverse composition
(operator/ and operator/=), inverse, and reprojection; composition arguments
carry valid rotations. -/
inductive TranReach : Transformation → Prop where
  | base (T : Transformation) (h : isSO3 T.C_ba) : TranReach T
  | mul (T T_rhs : Transformation) (h : TranReach T) (h2 : isSO3 T_rhs.C_ba) :
      TranReach (T.mulAssign T_rhs)
  | div (T T_rhs : Transformation) (h : TranReach T) (h2 : isSO3 T_rhs.C_ba) :
      TranReach (T.divAssign T_rhs)
  | inv (T : Transformation) (h : TranReach T) : TranReach T.inverse
  | reproj (T : Transformation) (force : Bool) (h : TranReach T) :
      TranReach (T.reproject force)

/-! Basic matrix algebra lemmas. -/

theorem matMul_identityM (A : Mat3) : matMul A identityM = A := by
  ext <;> simp [matMul, identityM]

theorem identityM_matMul (A : Mat3) : matMul identityM A = A := by
  ext <;> simp [matMul, identityM]

theorem matMul_assoc (A B C : Mat3) : matMul (matMul A B) C = matMul A (matMul B C) := by
  ext <;> simp [matMul] <;> ring

theorem transposeM_matMul (A B : Mat3) :
    transposeM (matMul A B) = matMul (transposeM B) (transposeM A) := by
  ext <;> simp [matMul, transposeM] <;> ring

theorem transposeM_transposeM (A : Mat3) : transposeM (transposeM A) = A := by
  ext <;> simp [transposeM]

theorem detM_matMul (A B : Mat3) : detM (matMul A B) = detM A * detM B := by
  simp only [detM, matMul]
  ring

theorem detM_transposeM (A : Mat3) : detM (transposeM A) = detM A := by
  simp only [detM, transposeM]
  ring

theorem detM_identityM : detM identityM = 1 := by
  simp [detM, identityM]

theorem matMul_adjM (A : Mat3) : matMul A (adjM A) = matSmul (detM A) identityM := by
  ext <;> simp [matMul, adjM, matSmul, detM, identityM] <;> ring

theorem adjM_matMul (A : Mat3) : matMul (adjM A) A = matSmul (detM A) identityM := by
  ext <;> simp [matMul, adjM, matSmul, detM, identityM] <;> ring

theorem matSmul_matMul (s : ℝ) (A B : Mat3) :
    matMul (matSmul s A) B = matSmul s (matMul A B) := by
  ext <;> simp [matMul, matSmul] <;> ring

theorem matMul_matSmul (s : ℝ) (A B : Mat3) :
    matMul A (matSmul s B) = matSmul s (matMul A B) := by
  ext <;> simp [matMul, matSmul] <;> ring

theorem matSmul_matSmul (s t : ℝ) (A : Mat3) :
    matSmul s (matSmul t A) = matSmul (s * t) A := by
  ext <;> simp [matSmul] <;> ring

theorem matSmul_one (A : Mat3) : matSmul 1 A = A := by
  ext <;> simp [matSmul]

/-- A one-sided inverse of a 3x3 matrix is two-sided. -/
theorem matMul_eq_one_comm {A B : Mat3} (h : matMul A B = identityM) :
    matMul B A = identityM := by
  have hdet : detM A * detM B = 1 := by
    rw [← detM_matMul, h, detM_identityM]
  have hA : detM A ≠ 0 := left_ne_zero_of_mul_eq_one hdet
  have hadj : matSmul (detM A) B = adjM A := by
    have h2 : matMul (adjM A) (matMul A B) = adjM A := by
      rw [h, matMul_identityM]
    rw [← matMul_assoc, adjM_matMul, matSmul_matMul, identityM_matMul] at h2
    exact h2
  have h3 : matMul (matSmul (detM A) B) A = matSmul (detM A) identityM := by
    rw [hadj, adjM_matMul]
  rw [matSmul_matMul] at h3
  have h4 := congrArg (matSmul (detM A)⁻¹) h3
  rwa [matSmul_matSmul, matSmul_matSmul, inv_mul_cancel₀ hA, matSmul_one, matSmul_one] at h4

theorem isSO3_identityM : isSO3 identityM := by
  constructor
  · ext <;> simp [matMul, transposeM, identityM]
  · exact detM_identityM

theorem isSO3_matMul {A B : Mat3} (hA : isSO3 A) (hB : isSO3 B) : isSO3 (matMul A B) := by
  constructor
  · rw [transposeM_matMul, matMul_assoc, ← matMul_assoc (transposeM A), hA.1,
      identityM_matMul, hB.1]
  · rw [detM_matMul, hA.2, hB.2, one_mul]

theorem isSO3_transposeM {A : Mat3} (hA : isSO3 A) : isSO3 (transposeM A) := by
  constructor
  · rw [transposeM_transposeM]
    exact matMul_eq_one_comm hA.1
  · rw [detM_transposeM]
    exact hA.2

/-! Reprojection helper lemmas. -/

theorem reproject_r_ab_inb (T : Transformation) (force : Bool) :
    (T.reproject force).r_ab_inb = T.r_ab_inb := by
  unfold Transformation.reproject
  split <;> rfl

theorem reproject_C_ba_cases (T : Transformation) (force : Bool) :
    (T.reproject force).C_ba = vec2rot (rot2vec T.C_ba) ∨
      (T.reproject force).C_ba = T.C_ba := by
  unfold Transformation.reproject
  split
  · exact Or.inl rfl
  · exact Or.inr rfl

theorem reproject_of_detM_one (T : Transformation) (h : detM T.C_ba = 1) :
    T.reproject false = T := by
  unfold Transformation.reproject
  rw [if_neg]
  rw [h]
  norm_num

/-- C1: for every Transformation state and boolean force, reproject(force)
replaces the stored rotation with vec2rot(rot2vec(C)) when force is true or
|1 - det(C)| exceeds 1e-6, and otherwise leaves the rotation exactly as it
was. -/
theorem claim_C1_reproject_policy (T : Transformation) (force : Bool) :
    ((force = true ∨ |1 - detM T.C_ba| > 1e-6) →
      (T.reproject force).C_ba = vec2rot (rot2vec T.C_ba)) ∧
    (¬(force = true ∨ |1 - detM T.C_ba| > 1e-6) →
      (T.reproject force).C_ba = T.C_ba) := by
  constructor
  · intro h
    unfold Transformation.reproject
    rw [if_pos h]
  · intro h
    unfold Transformation.reproject
    rw [if_neg h]

/-- C1 witness: at the identity transformation, reproject(true) takes the
log-then-exp round trip (forced), while reproject(false) leaves the rotation
untouched since |1 - det(I)| = 0 is within tolerance. -/
theorem claim_C1_reproject_policy_witness :
    (defaultTransformation.reproject true).C_ba =
        vec2rot (rot2vec defaultTransformation.C_ba) ∧
      (defaultTransformation.reproject false).C_ba = defaultTransformation.C_ba := by
  constructor
  · exact (claim_C1_reproject_policy defaultTransformation true).1 (Or.inl rfl)
  · refine (claim_C1_reproject_policy defaultTransformation false).2 ?_
    simp only [defaultTransformation, detM, identityM]
    norm_num

/-- C2: reproject(force) never modifies the stored translation vector
r_ab_inb, for any Transformation and any force flag. -/
theorem claim_C2_reproject_translation (T : Transformation) (force : Bool) :
    (T.reproject force).r_ab_inb = T.r_ab_inb :=
  reproject_r_ab_inb T force

/-- C5: applying a Transformation to a homogeneous 4-vector agrees with the
homogeneous matrix product matrix(T) * p: the first three components are
C * p[0..2] + r * p[3] and the fourth component is p[3]. -/
theorem claim_C5_homogeneous_action (T : Transformation) (p_a : Vec4) :
    T.mulVec4 p_a = mat4MulVec4 T.matrix p_a ∧
      (⟨(T.mulVec4 p_a).a, (T.mulVec4 p_a).b, (T.mulVec4 p_a).c⟩ : Vec3) =
        addV (mulMV T.C_ba ⟨p_a.a, p_a.b, p_a.c⟩) (smulV p_a.d T.r_ab_inb) ∧
      (T.mulVec4 p_a).d = p_a.d := by
  refine ⟨?_, rfl, rfl⟩
  ext <;>
    simp [Transformation.mulVec4, mat4MulVec4, Transformation.matrix, addV, mulMV, smulV] <;>
    ring

/-- C8: the constructor from a 4x4 matrix reads only the top three rows: two
matrices agreeing there construct equal Transformations, whatever their bottom
rows. -/
theorem claim_C8_top_rows_only (M N : Mat4)
    (h : M.m00 = N.m00 ∧ M.m01 = N.m01 ∧ M.m02 = N.m02 ∧ M.m03 = N.m03 ∧
         M.m10 = N.m10 ∧ M.m11 = N.m11 ∧ M.m12 = N.m12 ∧ M.m13 = N.m13 ∧
         M.m20 = N.m20 ∧ M.m21 = N.m21 ∧ M.m22 = N.m22 ∧ M.m23 = N.m23) :
    Transformation.fromMatrix4 M = Transformation.fromMatrix4 N := by
  obtain ⟨h1, h2, h3, h4, h5, h6, h7, h8, h9, h10, h11, h12⟩ := h
  unfold Transformation.fromMatrix4
  rw [h1, h2, h3, h4, h5, h6, h7, h8, h9, h10, h11, h12]

/-- C8 witness: two concrete matrices with the same top three rows but
different bottom rows construct the same Transformation. -/
theorem claim_C8_top_rows_only_witness :
    Transformation.fromMatrix4 ⟨1, 0, 0, 5, 0, 1, 0, 6, 0, 0, 1, 7, 0, 0, 0, 1⟩ =
      Transformation.fromMatrix4 ⟨1, 0, 0, 5, 0, 1, 0, 6, 0, 0, 1, 7, 9, 8, 4, 3⟩ :=
  claim_C8_top_rows_only _ _
    ⟨rfl, rfl, rfl, rfl, rfl, rfl, rfl, rfl, rfl, rfl, rfl, rfl⟩

/-- C9: the Rotation composition operators never validate or correct: both *=
and * store exactly the matrix product, and both /= and / store exactly the
product with the transpose, for every pair of Rotation values. -/
theorem claim_C9_rotation_ops_exact (R C_rhs : Rotation) :
    (R.mulAssign C_rhs).C_ba = matMul R.C_ba C_rhs.C_ba ∧
      (R.mul C_rhs).C_ba = matMul R.C_ba C_rhs.C_ba ∧
      (R.divAssign C_rhs).C_ba = matMul R.C_ba (transposeM C_rhs.C_ba) ∧
      (R.div C_rhs).C_ba = matMul R.C_ba (transposeM C_rhs.C_ba) :=
  ⟨rfl, rfl, rfl, rfl⟩

/-- C3 counterexample: on a 4-element vector the Rotation constructor does not
raise invalid-argument — it raises logic-error (std::logic_error in the
source), refuting the claim that a wrong-length rotation input raises an
invalid-argument failure. -/
theorem claim_C3_counterexample :
    ([0, 0, 0, 0] : List ℝ).length ≠ 3 ∧
      Rotation.fromVectorXd [0, 0, 0, 0] ≠ Except.error CtorError.invalidArgument ∧
      Rotation.fromVectorXd [0, 0, 0, 0] = Except.error CtorError.logicError := by
  refine ⟨by norm_num, ?_, ?_⟩ <;> simp [Rotation.fromVectorXd]

/-- C3 (amended): constructing a Rotation from a dynamically-sized vector
raises a hard logic-error failure exactly when the length is not 3, and
constructing a Transformation from one raises a hard invalid-argument failure
exactly when the length is not 6; in every failing case the error is the
constructor's immediate result, before any exponential-map computation, and
otherwise construction succeeds. -/
theorem claim_C3_dimension_check (v : List ℝ) :
    (Rotation.fromVectorXd v = Except.error CtorError.logicError ↔ v.length ≠ 3) ∧
      ((∃ R, Rotation.fromVectorXd v = Except.ok R) ↔ v.length = 3) ∧
      (Transformation.fromVectorXd v = Except.error CtorError.invalidArgument ↔
        v.length ≠ 6) ∧
      ((∃ T, Transformation.fromVectorXd v = Except.ok T) ↔ v.length = 6) := by
  refine ⟨?_, ?_, ?_, ?_⟩
  · by_cases h : v.length = 3 <;> simp [Rotation.fromVectorXd, h]
  · by_cases h : v.length = 3 <;> simp [Rotation.fromVectorXd, h]
  · by_cases h : v.length = 6 <;> simp [Transformation.fromVectorXd, h]
  · by_cases h : v.length = 6 <;> simp [Transformation.fromVectorXd, h]

/-- The Rodrigues combination I + a*skew(v) + b*skew(v)^2 lies in SO(3)
whenever the coefficients satisfy 2b - a^2 - b^2*|v|^2 = 0. -/
theorem rodrigues_isSO3 (x y z a b : ℝ)
    (hab : 2 * b - a ^ 2 - b ^ 2 * (x ^ 2 + y ^ 2 + z ^ 2) = 0) :
    isSO3 (matAdd (matAdd identityM (matSmul a (skewM ⟨x, y, z⟩)))
      (matSmul b (matMul (skewM ⟨x, y, z⟩) (skewM ⟨x, y, z⟩)))) := by
  constructor
  · ext
    · simp only [matAdd, matSmul, matMul, transposeM, identityM, skewM]
      linear_combination (-(y ^ 2 + z ^ 2)) * hab
    · simp only [matAdd, matSmul, matMul, transposeM, identityM, skewM]
      linear_combination (x * y) * hab
    · simp only [matAdd, matSmul, matMul, transposeM, identityM, skewM]
      linear_combination (x * z) * hab
    · simp only [matAdd, matSmul, matMul, transposeM, identityM, skewM]
      linear_combination (x * y) * hab
    · simp only [matAdd, matSmul, matMul, transposeM, identityM, skewM]
      linear_combination (-(x ^ 2 + z ^ 2)) * hab
    · simp only [matAdd, matSmul, matMul, transposeM, identityM, skewM]
      linear_combination (y * z) * hab
    · simp only [matAdd, matSmul, matMul, transposeM, identityM, skewM]
      linear_combination (x * z) * hab
    · simp only [matAdd, matSmul, matMul, transposeM, identityM, skewM]
      linear_combination (y * z) * hab
    · simp only [matAdd, matSmul, matMul, transposeM, identityM, skewM]
      linear_combination (-(x ^ 2 + y ^ 2)) * hab
  · simp only [matAdd, matSmul, matMul, detM, identityM, skewM]
    linear_combination (-(x ^ 2 + y ^ 2 + z ^ 2)) * hab

/-- The modelled exponential map always returns an SO(3) matrix. -/
theorem vec2rot_isSO3 (v : Vec3) : isSO3 (vec2rot v) := by
  obtain ⟨x, y, z⟩ := v
  unfold vec2rot
  by_cases ht : norm3 ⟨x, y, z⟩ = 0
  · rw [if_pos ht]
    exact isSO3_identityM
  · rw [if_neg ht]
    refine rodrigues_isSO3 x y z _ _ ?_
    have ht2 : norm3 (⟨x, y, z⟩ : Vec3) ^ 2 = x ^ 2 + y ^ 2 + z ^ 2 :=
      Real.sq_sqrt (by positivity)
    rw [← ht2]
    have hs := Real.sin_sq_add_cos_sq (norm3 (⟨x, y, z⟩ : Vec3))
    field_simp
    linear_combination (-(norm3 (⟨x, y, z⟩ : Vec3) ^ 4)) * hs

/-- Reprojection preserves membership in SO(3). -/
theorem reproject_isSO3 {T : Transformation} (h : isSO3 T.C_ba) (force : Bool) :
    isSO3 ((T.reproject force).C_ba) := by
  rcases reproject_C_ba_cases T force with hc | hc
  · rw [hc]
    exact vec2rot_isSO3 _
  · rw [hc]
    exact h

/-- C7: the SO(3) predicate (orthonormal, determinant 1) holds at every state
reachable from a valid rotation by the composition, inverse-composition,
inverse, and reprojection operators of the Rotation and Transformation
classes (exact arithmetic; the modelled vec2rot returns an SO(3) matrix, here
proved as vec2rot_isSO3 rather than assumed). -/
theorem claim_C7_group_closure :
    (∀ R : Rotation, RotReach R → isSO3 R.C_ba) ∧
      (∀ T : Transformation, TranReach T → isSO3 T.C_ba) := by
  constructor
  · intro R h
    induction h with
    | base R h => exact h
    | mul R C_rhs h h2 ih => exact isSO3_matMul ih h2
    | div R C_rhs h h2 ih => exact isSO3_matMul ih (isSO3_transposeM h2)
    | inv R h ih => exact isSO3_transposeM ih
  · intro T h
    induction h with
    | base T h => exact h
    | mul T T_rhs h h2 ih =>
        exact reproject_isSO3 (T := ⟨_, _⟩) (isSO3_matMul ih h2) false
    | div T T_rhs h h2 ih =>
        exact reproject_isSO3 (T := ⟨_, _⟩) (isSO3_matMul ih (isSO3_transposeM h2)) false
    | inv T h ih =>
        exact reproject_isSO3 (T := ⟨_, _⟩) (isSO3_transposeM ih) false
    | reproj T force h ih => exact reproject_isSO3 ih force

/-- C7 witness: concrete reachable states — the inverse of the identity
rotation and a forced reprojection of the identity transformation — satisfy
the SO(3) predicate. -/
theorem claim_C7_group_closure_witness :
    isSO3 defaultRotation.inverse.C_ba ∧
      isSO3 ((defaultTransformation.reproject true).C_ba) := by
  constructor
  · exact claim_C7_group_closure.1 _
      (RotReach.inv defaultRotation (RotReach.base defaultRotation isSO3_identityM))
  · exact claim_C7_group_closure.2 _
      (TranReach.reproj defaultTransformation true
        (TranReach.base defaultTransformation isSO3_identityM))

/-- C6: for a Transformation whose stored rotation is orthonormal with
determinant 1, composing with its inverse yields exactly the identity
transformation (rotation I, translation 0) under exact arithmetic. -/
theorem claim_C6_inverse_composition (T : Transformation) (h : isSO3 T.C_ba) :
    T.mul T.inverse = defaultTransformation := by
  have hCCt : matMul T.C_ba (transposeM T.C_ba) = identityM := matMul_eq_one_comm h.1
  have hdetT : detM (transposeM T.C_ba) = 1 := by
    rw [detM_transposeM]
    exact h.2
  have hinv : T.inverse =
      ⟨transposeM T.C_ba, negV (mulMV (transposeM T.C_ba) T.r_ab_inb)⟩ := by
    unfold Transformation.inverse
    rw [reproject_of_detM_one ⟨transposeM T.C_ba, zeroV⟩ hdetT]
  have hv : addV T.r_ab_inb
      (mulMV T.C_ba (negV (mulMV (transposeM T.C_ba) T.r_ab_inb))) = zeroV := by
    have e1 := congrArg Mat3.xx hCCt
    have e2 := congrArg Mat3.xy hCCt
    have e3 := congrArg Mat3.xz hCCt
    have e4 := congrArg Mat3.yx hCCt
    have e5 := congrArg Mat3.yy hCCt
    have e6 := congrArg Mat3.yz hCCt
    have e7 := congrArg Mat3.zx hCCt
    have e8 := congrArg Mat3.zy hCCt
    have e9 := congrArg Mat3.zz hCCt
    simp only [matMul, transposeM, identityM] at e1 e2 e3 e4 e5 e6 e7 e8 e9
    ext
    · simp only [addV, mulMV, negV, zeroV, transposeM]
      linear_combination (-(T.r_ab_inb.x * e1 + T.r_ab_inb.y * e2 + T.r_ab_inb.z * e3))
    · simp only [addV, mulMV, negV, zeroV, transposeM]
      linear_combination (-(T.r_ab_inb.x * e4 + T.r_ab_inb.y * e5 + T.r_ab_inb.z * e6))
    · simp only [addV, mulMV, negV, zeroV, transposeM]
      linear_combination (-(T.r_ab_inb.x * e7 + T.r_ab_inb.y * e8 + T.r_ab_inb.z * e9))
  rw [Transformation.mul, Transformation.mulAssign, hinv]
  rw [show (⟨transposeM T.C_ba, negV (mulMV (transposeM T.C_ba) T.r_ab_inb)⟩ :
      Transformation).C_ba = transposeM T.C_ba from rfl]
  rw [show (⟨transposeM T.C_ba, negV (mulMV (transposeM T.C_ba) T.r_ab_inb)⟩ :
      Transformation).r_ab_inb = negV (mulMV (transposeM T.C_ba) T.r_ab_inb) from rfl]
  rw [hCCt, hv]
  exact reproject_of_detM_one ⟨identityM, zeroV⟩ detM_identityM

/-- C6 witness: a concrete 90-degree rotation about z with translation
(1,2,3) composed with its inverse gives the identity transformation. -/
theorem claim_C6_inverse_composition_witness :
    (⟨⟨0, -1, 0, 1, 0, 0, 0, 0, 1⟩, ⟨1, 2, 3⟩⟩ : Transformation).mul
        (Transformation.inverse ⟨⟨0, -1, 0, 1, 0, 0, 0, 0, 1⟩, ⟨1, 2, 3⟩⟩) =
      defaultTransformation := by
  refine claim_C6_inverse_composition _ ⟨?_, ?_⟩
  · ext <;> norm_num [matMul, transposeM, identityM]
  · norm_num [detM]

/-- C10: the default-constructed Rotation holds exactly the identity matrix
and the default-constructed Transformation holds exactly (identity, zero
translation); each is a two-sided identity for its composition operator (for
Transformation under an orthonormal, determinant-one stored rotation, exact
arithmetic). -/
theorem claim_C10_default_identities :
    (defaultRotation = ⟨identityM⟩ ∧ defaultTransformation = ⟨identityM, zeroV⟩) ∧
      (∀ R : Rotation, R.mul defaultRotation = R ∧ defaultRotation.mul R = R) ∧
      (∀ T : Transformation, isSO3 T.C_ba →
        T.mul defaultTransformation = T ∧ defaultTransformation.mul T = T) := by
  refine ⟨⟨rfl, rfl⟩, ?_, ?_⟩
  · intro R
    constructor <;>
      (ext <;> simp [Rotation.mul, Rotation.mulAssign, matMul, identityM, defaultRotation])
  · intro T h
    constructor
    · have hT : (⟨matMul T.C_ba identityM,
          addV T.r_ab_inb (mulMV T.C_ba zeroV)⟩ : Transformation) = T := by
        rw [matMul_identityM]
        ext <;> simp [addV, mulMV, zeroV]
      calc T.mul defaultTransformation
          = Transformation.reproject
              ⟨matMul T.C_ba identityM, addV T.r_ab_inb (mulMV T.C_ba zeroV)⟩ false := rfl
        _ = Transformation.reproject T false := by rw [hT]
        _ = T := reproject_of_detM_one T h.2
    · have hT : (⟨matMul identityM T.C_ba,
          addV zeroV (mulMV identityM T.r_ab_inb)⟩ : Transformation) = T := by
        rw [identityM_matMul]
        ext <;> simp [addV, mulMV, zeroV, identityM]
      calc defaultTransformation.mul T
          = Transformation.reproject
              ⟨matMul identityM T.C_ba, addV zeroV (mulMV identityM T.r_ab_inb)⟩ false := rfl
        _ = Transformation.reproject T false := by rw [hT]
        _ = T := reproject_of_detM_one T h.2

/-- C10 witness: the two-sided identity law at a concrete transformation with
an orthonormal rotation. -/
theorem claim_C10_default_identities_witness :
    (⟨⟨0, -1, 0, 1, 0, 0, 0, 0, 1⟩, ⟨1, 2, 3⟩⟩ : Transformation).mul
        defaultTransformation = ⟨⟨0, -1, 0, 1, 0, 0, 0, 0, 1⟩, ⟨1, 2, 3⟩⟩ ∧
      defaultTransformation.mul ⟨⟨0, -1, 0, 1, 0, 0, 0, 0, 1⟩, ⟨1, 2, 3⟩⟩ =
        ⟨⟨0, -1, 0, 1, 0, 0, 0, 0, 1⟩, ⟨1, 2, 3⟩⟩ := by
  refine claim_C10_default_identities.2.2 _ ⟨?_, ?_⟩
  · ext <;> norm_num [matMul, transposeM, identityM]
  · norm_num [detM]

/-! Lemmas for the exponential/logarithmic round trip (claim C4). -/

theorem norm3_nonneg (v : Vec3) : 0 ≤ norm3 v := Real.sqrt_nonneg _

theorem norm3_sq (v : Vec3) : norm3 v ^ 2 = v.x ^ 2 + v.y ^ 2 + v.z ^ 2 :=
  Real.sq_sqrt (by positivity)

theorem norm3_eq_zero {v : Vec3} (h : norm3 v = 0) : v = zeroV := by
  have hsum : v.x ^ 2 + v.y ^ 2 + v.z ^ 2 ≤ 0 := Real.sqrt_eq_zero'.mp h
  have hx : v.x ^ 2 = 0 := by nlinarith [sq_nonneg v.x, sq_nonneg v.y, sq_nonneg v.z]
  have hy : v.y ^ 2 = 0 := by nlinarith [sq_nonneg v.x, sq_nonneg v.y, sq_nonneg v.z]
  have hz : v.z ^ 2 = 0 := by nlinarith [sq_nonneg v.x, sq_nonneg v.y, sq_nonneg v.z]
  ext
  · exact pow_eq_zero_iff two_ne_zero |>.mp hx
  · exact pow_eq_zero_iff two_ne_zero |>.mp hy
  · exact pow_eq_zero_iff two_ne_zero |>.mp hz

theorem vec2rot_zeroV : vec2rot zeroV = identityM := by
  unfold vec2rot
  rw [if_pos]
  unfold norm3 zeroV
  norm_num

theorem trace_vec2rot (v : Vec3) : traceM (vec2rot v) = 1 + 2 * Real.cos (norm3 v) := by
  obtain ⟨x, y, z⟩ := v
  by_cases ht : norm3 ⟨x, y, z⟩ = 0
  · unfold vec2rot
    rw [if_pos ht, ht, Real.cos_zero]
    norm_num [traceM, identityM]
  · unfold vec2rot
    rw [if_neg ht]
    have ht2 := norm3_sq ⟨x, y, z⟩
    simp only [traceM, matAdd, matSmul, matMul, identityM, skewM]
    field_simp
    linear_combination (2 * (1 - Real.cos (norm3 ⟨x, y, z⟩))) * ht2

theorem rot2vecAngle_vec2rot (v : Vec3) (h : norm3 v ≤ Real.pi) :
    rot2vecAngle (vec2rot v) = norm3 v := by
  unfold rot2vecAngle
  rw [trace_vec2rot]
  have hc : (1 + 2 * Real.cos (norm3 v) - 1) / 2 = Real.cos (norm3 v) := by ring
  rw [hc, max_eq_right (Real.neg_one_le_cos _), min_eq_right (Real.cos_le_one _)]
  exact Real.arccos_cos (norm3_nonneg v) h

theorem rot2vec_identityM : rot2vec identityM = zeroV := by
  have hangle : rot2vecAngle identityM = 0 := by
    unfold rot2vecAngle
    have h1 : (traceM identityM - 1) / 2 = 1 := by norm_num [traceM, identityM]
    rw [h1]
    norm_num [Real.arccos_one]
  unfold rot2vec
  rw [hangle, if_pos rfl]

/-- The round trip below pi: rot2vec(vec2rot(phi)) = phi for |phi| < pi. -/
theorem roundtrip_lt_pi (v : Vec3) (h : norm3 v < Real.pi) : rot2vec (vec2rot v) = v := by
  by_cases ht : norm3 v = 0
  · rw [norm3_eq_zero ht, vec2rot_zeroV, rot2vec_identityM]
  · obtain ⟨x, y, z⟩ := v
    have ht0 : 0 < norm3 (⟨x, y, z⟩ : Vec3) := (norm3_nonneg _).lt_of_ne' ht
    have hangle := rot2vecAngle_vec2rot ⟨x, y, z⟩ h.le
    have hs : Real.sin (norm3 (⟨x, y, z⟩ : Vec3)) ≠ 0 :=
      (Real.sin_pos_of_pos_of_lt_pi ht0 h).ne'
    unfold rot2vec
    rw [hangle, if_neg ht, if_neg h.ne]
    have ht2 := norm3_sq ⟨x, y, z⟩
    unfold vec2rot
    rw [if_neg ht]
    ext <;>
      simp only [smulV, matAdd, matSmul, matMul, identityM, skewM] <;>
      field_simp <;>
      ring

/-- At angle pi the matrix (R + I)/2 built from vec2rot(phi) is the dyadic
product of the unit axis with itself. -/
theorem vec2rot_pi_dyadic (x y z : ℝ) (h : norm3 ⟨x, y, z⟩ = Real.pi) :
    matSmul (1 / 2) (matAdd (vec2rot ⟨x, y, z⟩) identityM) =
      ⟨x * x / Real.pi ^ 2, x * y / Real.pi ^ 2, x * z / Real.pi ^ 2,
       x * y / Real.pi ^ 2, y * y / Real.pi ^ 2, y * z / Real.pi ^ 2,
       x * z / Real.pi ^ 2, y * z / Real.pi ^ 2, z * z / Real.pi ^ 2⟩ := by
  have hsum : x ^ 2 + y ^ 2 + z ^ 2 = Real.pi ^ 2 := by
    have hn := norm3_sq ⟨x, y, z⟩
    rw [h] at hn
    exact hn.symm
  have ht : norm3 (⟨x, y, z⟩ : Vec3) ≠ 0 := by
    rw [h]
    exact Real.pi_ne_zero
  unfold vec2rot
  rw [if_neg ht, h]
  ext
  · simp only [matSmul, matAdd, matMul, identityM, skewM, Real.sin_pi, Real.cos_pi]
    field_simp
    linear_combination (-2 * Real.pi ^ 2) * hsum
  · simp only [matSmul, matAdd, matMul, identityM, skewM, Real.sin_pi, Real.cos_pi]
    field_simp
    ring
  · simp only [matSmul, matAdd, matMul, identityM, skewM, Real.sin_pi, Real.cos_pi]
    field_simp
    ring
  · simp only [matSmul, matAdd, matMul, identityM, skewM, Real.sin_pi, Real.cos_pi]
    field_simp
    ring
  · simp only [matSmul, matAdd, matMul, identityM, skewM, Real.sin_pi, Real.cos_pi]
    field_simp
    linear_combination (-2 * Real.pi ^ 2) * hsum
  · simp only [matSmul, matAdd, matMul, identityM, skewM, Real.sin_pi, Real.cos_pi]
    field_simp
    ring
  · simp only [matSmul, matAdd, matMul, identityM, skewM, Real.sin_pi, Real.cos_pi]
    field_simp
    ring
  · simp only [matSmul, matAdd, matMul, identityM, skewM, Real.sin_pi, Real.cos_pi]
    field_simp
    ring
  · simp only [matSmul, matAdd, matMul, identityM, skewM, Real.sin_pi, Real.cos_pi]
    field_simp
    linear_combination (-2 * Real.pi ^ 2) * hsum

/-- Extracting the axis from the dyadic matrix of a vector of norm t recovers
the vector up to a global sign. -/
theorem rot2vecPiAxis_dyadic (x y z t : ℝ) (ht : 0 < t)
    (hsum : x ^ 2 + y ^ 2 + z ^ 2 = t ^ 2) :
    smulV t (rot2vecPiAxis
        ⟨x * x / t ^ 2, x * y / t ^ 2, x * z / t ^ 2,
         x * y / t ^ 2, y * y / t ^ 2, y * z / t ^ 2,
         x * z / t ^ 2, y * z / t ^ 2, z * z / t ^ 2⟩) = (⟨x, y, z⟩ : Vec3) ∨
      smulV t (rot2vecPiAxis
        ⟨x * x / t ^ 2, x * y / t ^ 2, x * z / t ^ 2,
         x * y / t ^ 2, y * y / t ^ 2, y * z / t ^ 2,
         x * z / t ^ 2, y * z / t ^ 2, z * z / t ^ 2⟩) = negV ⟨x, y, z⟩ := by
  have ht2 : (0 : ℝ) < t ^ 2 := by positivity
  unfold rot2vecPiAxis
  dsimp only
  split_ifs with h1 h2
  · -- dominant x component
    have hy2 : y ^ 2 ≤ x ^ 2 := by
      have := (div_le_div_iff_of_pos_right ht2).mp h1.1
      nlinarith [this]
    have hz2 : z ^ 2 ≤ x ^ 2 := by
      have := (div_le_div_iff_of_pos_right ht2).mp h1.2
      nlinarith [this]
    have hx2 : 0 < x ^ 2 := by nlinarith
    have hx : x ≠ 0 := by
      intro h0
      rw [h0] at hx2
      simp at hx2
    have hsq : Real.sqrt (x * x / t ^ 2) = |x| / t := by
      rw [show x * x = x ^ 2 by ring, Real.sqrt_div (sq_nonneg x),
        Real.sqrt_sq_eq_abs, Real.sqrt_sq ht.le]
    rcases lt_or_gt_of_ne hx with hneg | hpos
    · right
      ext
      · dsimp only [smulV, negV]
        rw [hsq, abs_of_neg hneg]
        field_simp
        ring
      · dsimp only [smulV, negV]
        rw [hsq, abs_of_neg hneg]
        field_simp
        ring
      · dsimp only [smulV, negV]
        rw [hsq, abs_of_neg hneg]
        field_simp
        ring
    · left
      ext
      · dsimp only [smulV]
        rw [hsq, abs_of_pos hpos]
        field_simp
      · dsimp only [smulV]
        rw [hsq, abs_of_pos hpos]
        field_simp
        ring
      · dsimp only [smulV]
        rw [hsq, abs_of_pos hpos]
        field_simp
        ring
  · -- dominant y component
    have hz2 : z ^ 2 ≤ y ^ 2 := by
      have := (div_le_div_iff_of_pos_right ht2).mp h2
      nlinarith [this]
    have hxy : x ^ 2 < y ^ 2 ∨ x ^ 2 < z ^ 2 := by
      rcases not_and_or.mp h1 with ha | hb
      · left
        have hlt := (div_lt_div_iff_of_pos_right ht2).mp (lt_of_not_le ha)
        nlinarith [hlt]
      · right
        have hlt := (div_lt_div_iff_of_pos_right ht2).mp (lt_of_not_le hb)
        nlinarith [hlt]
    have hy2 : 0 < y ^ 2 := by
      rcases hxy with hc | hc
      · nlinarith [sq_nonneg x, sq_nonneg z]
      · nlinarith [sq_nonneg x, sq_nonneg z]
    have hy : y ≠ 0 := by
      intro h0
      rw [h0] at hy2
      simp at hy2
    have hsq : Real.sqrt (y * y / t ^ 2) = |y| / t := by
      rw [show y * y = y ^ 2 by ring, Real.sqrt_div (sq_nonneg y),
        Real.sqrt_sq_eq_abs, Real.sqrt_sq ht.le]
    rcases lt_or_gt_of_ne hy with hneg | hpos
    · right
      ext
      · dsimp only [smulV, negV]
        rw [hsq, abs_of_neg hneg]
        field_simp
        ring
      · dsimp only [smulV, negV]
        rw [hsq, abs_of_neg hneg]
        field_simp
        ring
      · dsimp only [smulV, negV]
        rw [hsq, abs_of_neg hneg]
        field_simp
        ring
    · left
      ext
      · dsimp only [smulV]
        rw [hsq, abs_of_pos hpos]
        field_simp
        ring
      · dsimp only [smulV]
        rw [hsq, abs_of_pos hpos]
        field_simp
      · dsimp only [smulV]
        rw [hsq, abs_of_pos hpos]
        field_simp
        ring
  · -- dominant z component
    have hy2 : y ^ 2 < z ^ 2 := by
      have := lt_of_not_le h2
      have := (div_lt_div_iff_of_pos_right ht2).mp this
      nlinarith [this]
    have hz2 : 0 < z ^ 2 := by nlinarith [sq_nonneg x, sq_nonneg y, sq_nonneg z]
    have hz : z ≠ 0 := by
      intro h0
      rw [h0] at hz2
      simp at hz2
    have hsq : Real.sqrt (z * z / t ^ 2) = |z| / t := by
      rw [show z * z = z ^ 2 by ring, Real.sqrt_div (sq_nonneg z),
        Real.sqrt_sq_eq_abs, Real.sqrt_sq ht.le]
    rcases lt_or_gt_of_ne hz with hneg | hpos
    · right
      ext
      · dsimp only [smulV, negV]
        rw [hsq, abs_of_neg hneg]
        field_simp
        ring
      · dsimp only [smulV, negV]
        rw [hsq, abs_of_neg hneg]
        field_simp
        ring
      · dsimp only [smulV, negV]
        rw [hsq, abs_of_neg hneg]
        field_simp
        ring
    · left
      ext
      · dsimp only [smulV]
        rw [hsq, abs_of_pos hpos]
        field_simp
        ring
      · dsimp only [smulV]
        rw [hsq, abs_of_pos hpos]
        field_simp
        ring
      · dsimp only [smulV]
        rw [hsq, abs_of_pos hpos]
        field_simp

/-- The round trip at pi: rot2vec(vec2rot(phi)) recovers phi up to the sign of
the axis when |phi| = pi. -/
theorem roundtrip_pi (v : Vec3) (h : norm3 v = Real.pi) :
    rot2vec (vec2rot v) = v ∨ rot2vec (vec2rot v) = negV v := by
  obtain ⟨x, y, z⟩ := v
  have hangle : rot2vecAngle (vec2rot ⟨x, y, z⟩) = Real.pi := by
    rw [rot2vecAngle_vec2rot _ h.le, h]
  have hsum : x ^ 2 + y ^ 2 + z ^ 2 = Real.pi ^ 2 := by
    have hn := norm3_sq ⟨x, y, z⟩
    rw [h] at hn
    exact hn.symm
  unfold rot2vec
  rw [hangle, if_neg Real.pi_ne_zero, if_pos rfl]
  unfold rot2vecPi
  rw [vec2rot_pi_dyadic x y z h]
  exact rot2vecPiAxis_dyadic x y z Real.pi Real.pi_pos hsum

/-- C4: under exact arithmetic, for every axis-angle vector with norm strictly
below pi, constructing a Rotation from it (closed form, numTerms = 0) and
calling vec() returns the vector itself; at norm exactly pi the round trip
recovers the vector up to the sign of the axis. -/
theorem claim_C4_round_trip (phi : Vec3) :
    (norm3 phi < Real.pi → (Rotation.fromAxisAngle phi).vec = phi) ∧
      (norm3 phi = Real.pi →
        (Rotation.fromAxisAngle phi).vec = phi ∨
          (Rotation.fromAxisAngle phi).vec = negV phi) := by
  constructor
  · intro h
    exact roundtrip_lt_pi phi h
  · intro h
    exact roundtrip_pi phi h

/-- C4 witness: the round trip at the concrete axis-angle vectors (0,0,1)
(norm 1 < pi) and (0,0,pi) (norm exactly pi). -/
theorem claim_C4_round_trip_witness :
    (Rotation.fromAxisAngle ⟨0, 0, 1⟩).vec = ⟨0, 0, 1⟩ ∧
      ((Rotation.fromAxisAngle ⟨0, 0, Real.pi⟩).vec = ⟨0, 0, Real.pi⟩ ∨
        (Rotation.fromAxisAngle ⟨0, 0, Real.pi⟩).vec = negV ⟨0, 0, Real.pi⟩) := by
  constructor
  · refine (claim_C4_round_trip ⟨0, 0, 1⟩).1 ?_
    have h1 : norm3 (⟨0, 0, 1⟩ : Vec3) = 1 := by
      unfold norm3
      norm_num
    rw [h1]
    linarith [Real.pi_gt_three]
  · refine (claim_C4_round_trip ⟨0, 0, Real.pi⟩).2 ?_
    unfold norm3
    norm_num
    exact Real.sqrt_sq Real.pi_pos.le
